import Mathlib

/-!
Verification of the data/IO core of the Metin2 mob-proto table editor
(`mob_proto_editor_simple.py`).  Text is modelled as a list of characters
(`Txt := List Char`), numeric cell values as exact rationals, and the UI
toolkit (file dialogs, grid widget) as the explicit state it stores.
-/

set_option maxRecDepth 10000

/-- Text is modelled as a list of characters; string literals are converted
with `String.data`. -/
abbrev Txt := List Char

/-- Whitespace test used by Python `str.strip`: exactly the characters for
which Python `str.isspace` holds — tab through carriage return, the ASCII
separators U+001C-001F, space, next-line U+0085, no-break space U+00A0,
ogham space U+1680, the U+2000-200A spaces, the U+2028/U+2029 separators,
U+202F, U+205F and the ideographic space U+3000.  The same set stands in
for the whitespace of Python `float()`, whose Unicode-to-ASCII transform
turns every one of these characters into a plain space before parsing. -/
def isSpaceChar (c : Char) : Bool :=
  decide ((9 ≤ c.toNat ∧ c.toNat ≤ 13) ∨ (28 ≤ c.toNat ∧ c.toNat ≤ 32) ∨ c.toNat = 0x85 ∨
    c.toNat = 0xA0 ∨ c.toNat = 0x1680 ∨ (0x2000 ≤ c.toNat ∧ c.toNat ≤ 0x200A) ∨
    c.toNat = 0x2028 ∨ c.toNat = 0x2029 ∨ c.toNat = 0x202F ∨ c.toNat = 0x205F ∨
    c.toNat = 0x3000)

/-- Model of Python `str.strip()`: drop leading and trailing whitespace. -/
def trimC (s : Txt) : Txt :=
  ((s.dropWhile isSpaceChar).reverse.dropWhile isSpaceChar).reverse

/-- Model of Python `str.split(sep)` for a one-character separator:
`"".split(sep) = [""]`, and every occurrence of the separator cuts. -/
def splitOnC (sep : Char) : Txt → List Txt
  | [] => [[]]
  | c :: rest =>
    match splitOnC sep rest with
    | [] => [[]]
    | t :: ts => if c = sep then [] :: t :: ts else (c :: t) :: ts

/-- Model of Python `sep.join(xs)` for a one-character separator. -/
def joinC (sep : Char) : List Txt → Txt
  | [] => []
  | [x] => x
  | x :: y :: rest => x ++ sep :: joinC sep (y :: rest)

/-- Lines each terminated by a newline, concatenated (the shape produced by
`save_to_file`, which writes `line + '\n'` for the header and every row). -/
def linesJoin (ls : List Txt) : Txt :=
  (ls.map (fun l => l ++ ['\n'])).flatten

/-- The `while len(row) < len(self.headers): row.append('')` padding loop of
`load_file_fast`: pad a parsed row with empty fields up to the header width;
a row that is already long enough is returned unchanged (never truncated). -/
def padRow (n : Nat) (row : List Txt) : List Txt :=
  row ++ List.replicate (n - row.length) []

/-- Universal-newline translation performed by reading the file in text
mode: `load_file_fast` opens with `open(path, 'r', encoding=...)`, whose
default `newline=None` turns `\r\n` and a lone `\r` into `\n` before the
program ever sees the text. -/
def normNL : Txt → Txt
  | [] => []
  | [c] => if c = '\r' then ['\n'] else [c]
  | c :: d :: rest =>
    if c = '\r' then
      if d = '\n' then '\n' :: normNL rest
      else '\n' :: normNL (d :: rest)
    else c :: normNL (d :: rest)

/-- The line normalisation of `load_file_fast`:
`[line.strip() for line in f.readlines() if line.strip()]` on the
universal-newline-translated text — strip every line and keep only the
non-blank results. -/
def parseLines (content : Txt) : List Txt :=
  ((splitOnC '\n' (normNL content)).map trimC).filter (fun l => !l.isEmpty)

/-- The parsing step of `load_file_fast` on decoded text: the first
non-blank line split on tabs is the header, every further non-blank line is
split on tabs and padded to the header width.  An input with no non-blank
lines is the `'File is empty'` error path (`none`): no state is committed. -/
def loadTable (content : Txt) : Option (List Txt × List (List Txt)) :=
  match parseLines content with
  | [] => none
  | hl :: rest =>
    let headers := splitOnC '\t' hl
    some (headers, rest.map (fun l => padRow headers.length (splitOnC '\t' l)))

/-- The row read-back loop of `save_to_file`:
`for col in range(self.table.columnCount())` reading `item.text()` with `''`
for a missing item — exactly `columnCount` fields per row. -/
def collectRow (n : Nat) (row : List Txt) : List Txt :=
  (List.range n).map (fun c => row.getD c [])

/-- The serialisation of `save_to_file`: tab-joined header line first, then
one tab-joined line per row as read back from the grid, each line
(including the last) terminated by a newline. -/
def saveContent (headers : List Txt) (rows : List (List Txt)) : Txt :=
  linesJoin (joinC '\t' headers :: rows.map (fun r => joinC '\t' (collectRow headers.length r)))

/-- Decimal value of a digit character. -/
def digitVal (c : Char) : Nat := c.toNat - '0'.toNat

/-- Value of a run of decimal digit characters. -/
def digitsVal (ds : Txt) : Nat := ds.foldl (fun a c => 10 * a + digitVal c) 0

/-- Rational construction helpers built on `mkRat`: `qMul`, `qAdd` and
`qNeg` are exact rational multiplication, addition and negation (proved
equal to `*`, `+` and `-` below), written through `mkRat` so that every
computation in the binary64 model reduces by kernel arithmetic. -/
def qMul (a b : ℚ) : ℚ := mkRat (a.num * b.num) (a.den * b.den)

def qAdd (a b : ℚ) : ℚ :=
  mkRat (a.num * (b.den : Int) + b.num * (a.den : Int)) (a.den * b.den)

def qNeg (a : ℚ) : ℚ := mkRat (-a.num) a.den

/-- An IEEE-754 binary64 value, the number type of CPython floats: a
finite double carries its exact rational value (always of the form
m·2^e with m < 2^53 and -1074 ≤ e, maintained by `roundF`), and the
infinities and NaN are explicit. -/
inductive F64 where
  | finite (q : ℚ)
  | inf (neg : Bool)
  | nan
deriving DecidableEq

/-- Bit length of a natural number (fuel-based so it reduces by kernel
computation; fuel `n` always suffices). -/
def bitLenAux : Nat → Nat → Nat
  | 0, _ => 0
  | f + 1, n => if n = 0 then 0 else bitLenAux f (n / 2) + 1

def bitLen (n : Nat) : Nat := bitLenAux n n

/-- Decides `2^k ≤ a/b` for positive naturals `a`, `b` and an integer
exponent, by cross-multiplication. -/
def pow2le (k : Int) (a b : Nat) : Bool :=
  if 0 ≤ k then b * 2 ^ k.toNat ≤ a else b ≤ a * 2 ^ (-k).toNat

/-- Floor of the base-2 logarithm of `a/b` for positive naturals. -/
def floorLog2 (a b : Nat) : Int :=
  let k0 : Int := (bitLen a : Int) - (bitLen b : Int)
  if pow2le k0 a b then k0 else k0 - 1

/-- Round `n/d` (with `d > 0`) to the nearest natural, ties to even. -/
def rneDiv (n d : Nat) : Nat :=
  let u := n / d
  let r := n % d
  if 2 * r < d then u else if d < 2 * r then u + 1 else if u % 2 = 0 then u else u + 1

/-- The fraction `(a/b) / 2^e` as a numerator-denominator pair. -/
def scaledFrac (a b : Nat) (e : Int) : Nat × Nat :=
  if 0 ≤ e then (a, b * 2 ^ e.toNat) else (a * 2 ^ (-e).toNat, b)

/-- The rational value `±m·2^e`. -/
def qOfScaled (m : Nat) (e : Int) (neg : Bool) : ℚ :=
  let mag : ℚ := if 0 ≤ e then mkRat ((m * 2 ^ e.toNat : Nat) : Int) 1
    else mkRat ((m : Nat) : Int) (2 ^ (-e).toNat)
  if neg then qNeg mag else mag

/-- Round an exact rational to the nearest binary64 value, ties to even:
the IEEE-754 rounding that every CPython float operation and every
decimal-string conversion performs.  The significand is the nearest
integer to `|q|/2^e` at the scale `e = max(-1074, ⌊log2 |q|⌋ - 52)`
(subnormals included); a carry to 2^53 renormalises, a result at or above
2^1024 overflows to infinity, and a subnormal that rounds to no bits at
all underflows to zero. -/
def roundF (q : ℚ) : F64 :=
  if q = 0 then .finite 0
  else
    let a := q.num.natAbs
    let b := q.den
    let k := floorLog2 a b
    let e : Int := max (-1074) (k - 52)
    let p := scaledFrac a b e
    let m0 := rneDiv p.1 p.2
    let m := if m0 = 2 ^ 53 then 2 ^ 52 else m0
    let e2 := if m0 = 2 ^ 53 then e + 1 else e
    if m = 0 then .finite 0
    else if 971 < e2 then .inf (q < 0)
    else .finite (qOfScaled m e2 (q < 0))

/-- Binary64 multiplication: the correctly-rounded exact product, with the
IEEE special cases for NaN, infinities and zero times infinity. -/
def mulF : F64 → F64 → F64
  | .nan, _ => .nan
  | _, .nan => .nan
  | .inf s, .inf t => .inf (xor s t)
  | .inf s, .finite q => if q = 0 then .nan else .inf (xor s (decide (q < 0)))
  | .finite q, .inf t => if q = 0 then .nan else .inf (xor (decide (q < 0)) t)
  | .finite a, .finite b => roundF (qMul a b)

/-- Binary64 addition: the correctly-rounded exact sum, with the IEEE
special cases. -/
def addF : F64 → F64 → F64
  | .nan, _ => .nan
  | _, .nan => .nan
  | .inf s, .inf t => if s = t then .inf s else .nan
  | .inf s, .finite _ => .inf s
  | .finite _, .inf t => .inf t
  | .finite a, .finite b => roundF (qAdd a b)

/-- Binary64 negation (the sign of a zero is not tracked: no output of
this program can observe it through `str(int(...))`). -/
def negF : F64 → F64
  | .finite q => .finite (qNeg q)
  | .inf s => .inf (!s)
  | .nan => .nan

/-- CPython's underscore rule for numeric strings: every underscore must
be immediately preceded and followed by a digit. -/
def underscoresOK (s : Txt) : Bool :=
  match s with
  | [] => true
  | ['_'] => false
  | '_' :: _ => false
  | c :: rest => go c rest
where
  go : Char → Txt → Bool
  | _, [] => true
  | prev, '_' :: rest =>
    match rest with
    | [] => false
    | nxt :: _ => prev.isDigit && nxt.isDigit && go '_' rest
  | _, c :: rest => go c rest

def stripUnderscores (s : Txt) : Txt := s.filter (fun c => c ≠ '_')

/-- ASCII lower-casing, for the case-insensitive `inf`/`nan` forms. -/
def lowerC (c : Char) : Char :=
  if 'A' ≤ c ∧ c ≤ 'Z' then Char.ofNat (c.toNat + 32) else c

/-- The exact rational `10^e`. -/
def qpow10 (e : Int) : ℚ :=
  if 0 ≤ e then mkRat ((10 ^ e.toNat : Nat) : Int) 1 else mkRat 1 (10 ^ (-e).toNat)

/-- The exponent part of a float literal: optional sign, then digits. -/
def parseExp (t : Txt) : Option Int :=
  match t with
  | '+' :: d => if d ≠ [] ∧ d.all Char.isDigit then some ((digitsVal d : Nat) : Int) else none
  | '-' :: d => if d ≠ [] ∧ d.all Char.isDigit then some (-((digitsVal d : Nat) : Int)) else none
  | d => if d ≠ [] ∧ d.all Char.isDigit then some ((digitsVal d : Nat) : Int) else none

/-- The exact rational value of an unsigned decimal float literal:
`digits [. digits] [(e|E) [sign] digits]`, with at least one digit before
the exponent.  Trailing junk rejects the whole literal. -/
def parseDecCore (t : Txt) : Option ℚ :=
  let ip := t.takeWhile Char.isDigit
  let r1 := t.dropWhile Char.isDigit
  match r1 with
  | [] => if ip = [] then none else some (mkRat ((digitsVal ip : Nat) : Int) 1)
  | '.' :: r2 =>
    let fr := r2.takeWhile Char.isDigit
    let r3 := r2.dropWhile Char.isDigit
    if ip = [] ∧ fr = [] then none
    else
      let base : ℚ := qAdd (mkRat ((digitsVal ip : Nat) : Int) 1)
        (mkRat ((digitsVal fr : Nat) : Int) (10 ^ fr.length))
      match r3 with
      | [] => some base
      | e :: r4 =>
        if e = 'e' ∨ e = 'E' then (parseExp r4).map (fun ex => qMul base (qpow10 ex)) else none
  | e :: r4 =>
    if (e = 'e' ∨ e = 'E') ∧ ip ≠ [] then
      (parseExp r4).map (fun ex => qMul (mkRat ((digitsVal ip : Nat) : Int) 1) (qpow10 ex))
    else none

/-- An unsigned float token: `inf`, `infinity` or `nan` case-insensitively,
or a decimal literal correctly rounded to binary64. -/
def parseMag (t : Txt) : Option F64 :=
  let tl := t.map lowerC
  if tl = "inf".data ∨ tl = "infinity".data then some (.inf false)
  else if tl = "nan".data then some .nan
  else (parseDecCore t).map roundF

/-- Model of Python `float(s)` on ASCII text: strip whitespace, validate
and remove digit-group underscores, take an optional sign, then an
`inf`/`infinity`/`nan` token or a decimal literal with optional exponent,
correctly rounded to the nearest binary64 value — which is what CPython's
correctly-rounded `strtod` produces.  (On non-ASCII input Python also
accepts Unicode decimal digits, which this model rejects; the one theorem
clause that asserts a parse failure is therefore stated for ASCII cells.) -/
def parseF (s : Txt) : Option F64 :=
  let t := trimC s
  if underscoresOK t then
    let t1 := stripUnderscores t
    match t1 with
    | '+' :: r => parseMag r
    | '-' :: r => (parseMag r).map negF
    | r => parseMag r
  else none

/-- Follows the claim's words rather than the source: the exact rational
value denoted by a decimal numeral (sign, digits, optional point).  The
claim C1 reads `current*operand` as arithmetic on the numbers the cell
texts denote; this definition produces those exact values, against which
the binary64 computation of `apply_mass_changes` is compared. -/
def exactDecimalValue (s : Txt) : Option ℚ :=
  let t := trimC s
  let neg : Bool :=
    match t with
    | '-' :: _ => true
    | _ => false
  let t1 : Txt :=
    match t with
    | '+' :: r => r
    | '-' :: r => r
    | _ => t
  let ip := t1.takeWhile Char.isDigit
  let rest := t1.dropWhile Char.isDigit
  let mk : ℚ → Option ℚ := fun q => some (if neg then qNeg q else q)
  match rest with
  | [] => if ip.isEmpty then none else mk (mkRat ((digitsVal ip : Nat) : Int) 1)
  | '.' :: fr =>
    if fr.all Char.isDigit && !(ip.isEmpty && fr.isEmpty) then
      mk (qAdd (mkRat ((digitsVal ip : Nat) : Int) 1)
        (mkRat ((digitsVal fr : Nat) : Int) (10 ^ fr.length)))
    else none
  | _ => none

/-- Model of Python `int()` applied to a float: truncation toward zero. -/
def truncQ (q : ℚ) : ℤ :=
  if q.num < 0 then -((q.num.natAbs / q.den : Nat) : ℤ) else ((q.num.natAbs / q.den : Nat) : ℤ)

/-- Character of a decimal digit. -/
def digitChar (n : Nat) : Char := Char.ofNat ('0'.toNat + n)

/-- Decimal rendering of a natural number (fuel-based so that it reduces by
kernel computation; the fuel `n + 1` always suffices). -/
def natToTextAux : Nat → Nat → Txt
  | 0, _ => []
  | f + 1, n => if n < 10 then [digitChar n] else natToTextAux f (n / 10) ++ [digitChar (n % 10)]

def natToText (n : Nat) : Txt := natToTextAux (n + 1) n

/-- Model of Python `str()` on an integer. -/
def intToText : ℤ → Txt
  | Int.ofNat n => natToText n
  | Int.negSucc m => '-' :: natToText (m + 1)

/-- One entry of a mass-edit batch, as produced by the mass-edit dialog:
column name, operation name, operand text. -/
structure MassSpec where
  col : Txt
  op : Txt
  operand : Txt
deriving DecidableEq

/-- The in-memory grid state the editor holds: the header names and the
cell texts of the table widget (one list of fields per row). -/
structure EditorState where
  headers : List Txt
  grid : List (List Txt)
deriving DecidableEq

/-- The column search of `apply_mass_changes`: first index whose header
equals the requested column name, if any. -/
def findColIndex (headers : List Txt) (name : Txt) : Option Nat :=
  match headers with
  | [] => none
  | h :: t => if h = name then some 0 else (findColIndex t name).map (· + 1)

/-- The operation dispatch of `apply_mass_changes`: `multiply`/`add`/`set`
compute `current*operand` / `current+operand` / `operand` in binary64
arithmetic; any other operation is skipped (`none`). -/
def opResult (op : Txt) (cur v : F64) : Option F64 :=
  if op = "multiply".data then some (mulF cur v)
  else if op = "add".data then some (addF cur v)
  else if op = "set".data then some v
  else none

/-- The write-back of `apply_mass_changes`: `str(int(new_val))`.  On a
finite result `int` truncates toward zero and the integer prints as text.
On a NaN result `int` raises `ValueError`, caught by the surrounding
`except (ValueError, TypeError)` as a skip.  (On an infinite result `int`
raises `OverflowError`, which that handler does not catch, so the whole
`apply_mass_changes` call aborts with an unhandled exception; this model
folds that case into `none` as well, and the claim's theorem only ever
draws conclusions from finite results.) -/
def computeCell (op : Txt) (cur v : F64) : Option Txt :=
  match opResult op cur v with
  | some (.finite r) => some (intToText (truncQ r))
  | _ => none

/-- The per-cell body of `apply_mass_changes`: an empty or missing cell is
read as `0.0`; a cell or operand that fails `float()` raises `ValueError`,
caught as a skip (`none`); otherwise the operation computes in binary64
and the result is written back through `computeCell`.  (The source parses
the operand inside each operation branch; for an unknown operation it
skips before parsing the operand — in both orders the result of such an
application is a skip.) -/
def applyCell (op operand cell : Txt) : Option Txt :=
  match (if cell = [] then some (F64.finite 0) else parseF cell) with
  | none => none
  | some cur =>
    match parseF operand with
    | none => none
    | some v => computeCell op cur v

/-- One (row, spec) step of `apply_mass_changes`: locate the column by
name (a miss skips the spec), read the cell, apply the operation, write
the new text back into the row; the second component counts `changes_made`
contributed by this application (`0` on any skip, `1` on success). -/
def applyOneSpec (headers : List Txt) (sp : MassSpec) (row : List Txt) : List Txt × Nat :=
  match findColIndex headers sp.col with
  | none => (row, 0)
  | some i =>
    match applyCell sp.op sp.operand (row.getD i []) with
    | none => (row, 0)
    | some t => (row.set i t, 1)

/-- The inner `for col_name, operation, value in changes` loop of
`apply_mass_changes` on one row, accumulating the update count. -/
def applySpecsToRow (headers : List Txt) : List MassSpec → List Txt → List Txt × Nat
  | [], row => (row, 0)
  | sp :: rest, row =>
    let p := applyOneSpec headers sp row
    let q := applySpecsToRow headers rest p.1
    (q.1, p.2 + q.2)

/-- One target-row step of the outer loop of `apply_mass_changes`. -/
def applyRowStep (headers : List Txt) (specs : List MassSpec) (acc : List (List Txt) × Nat)
    (r : Nat) : List (List Txt) × Nat :=
  (acc.1.set r (applySpecsToRow headers specs (acc.1.getD r [])).1,
   acc.2 + (applySpecsToRow headers specs (acc.1.getD r [])).2)

/-- The whole of `apply_mass_changes`: an empty batch returns at once;
otherwise the target rows are the selected indices, or every row when the
selection is empty, and each target row is transformed by every spec in
order.  Returns the new state and the `changes_made` count. -/
def apply_mass_changes (specs : List MassSpec) (sel : List Nat) (s : EditorState) :
    EditorState × Nat :=
  if specs = [] then (s, 0)
  else
    let tgts := if sel = [] then List.range s.grid.length else sel
    let p := tgts.foldl (applyRowStep s.headers specs) (s.grid, 0)
    (⟨s.headers, p.1⟩, p.2)

/-- The cell text at a (row, column) position of a grid, when present. -/
def cellAt (g : List (List Txt)) (r c : Nat) : Option Txt :=
  (g.get? r).bind (fun row => row.get? c)

/-- The literal placeholder names rejected by `get_mob_name`. -/
def placeholderNames : List Txt := ["??".data, "???".data, "????".data]

/-- The fallback chain of `get_mob_name`: the looked-up name when the id is
a key of the lookup; otherwise the original name when it is non-empty and
not a placeholder; otherwise `"Mob "` followed by the id. -/
def get_mob_name (names : Txt → Option Txt) (vnum original : Txt) : Txt :=
  match names vnum with
  | some n => n
  | none =>
    if original ≠ [] ∧ original ∉ placeholderNames then original
    else "Mob ".data ++ vnum

/-- The per-row name substitution of `setup_table`: when the header at
position 1 is literally `NAME` and the row has a field at position 1, the
stored field at position 1 is overwritten with the resolved name (which is
also what the table widget displays); otherwise the row is untouched. -/
def resolveRow (headers : List Txt) (names : Txt → Option Txt) (row : List Txt) : List Txt :=
  if headers.get? 1 = some "NAME".data ∧ 2 ≤ row.length then
    row.set 1 (get_mob_name names (row.headD []) (row.getD 1 []))
  else row

/-- The whole-table name substitution pass of `setup_table`. -/
def resolveGrid (headers : List Txt) (names : Txt → Option Txt) (grid : List (List Txt)) :
    List (List Txt) :=
  grid.map (resolveRow headers names)

/-- Model of Python `str.replace(pat, rep)` for a non-empty pattern:
replace every non-overlapping occurrence, scanning left to right.  The
fuel argument is the length of the remaining text, which always suffices;
it makes the definition reduce by kernel computation. -/
def replaceAllAux (pat rep : Txt) : Nat → Txt → Txt
  | 0, s => s
  | fuel + 1, s =>
    if pat ≠ [] ∧ pat.isPrefixOf s then rep ++ replaceAllAux pat rep fuel (s.drop pat.length)
    else
      match s with
      | [] => []
      | c :: rest => c :: replaceAllAux pat rep fuel rest

def replaceAll (pat rep s : Txt) : Txt := replaceAllAux pat rep s.length s

/-- The character-repair chain of `load_mob_names` (also the first half of
`fix_mob_names_file`), with each pattern and replacement exactly as the
bytes of the source read: every one of the nine character-level patterns
is the same single character U+FFFD, while the replacements differ. -/
def fixName (s : Txt) : Txt :=
  let s := replaceAll "�".data "ä".data s
  let s := replaceAll "�".data "ö".data s
  let s := replaceAll "�".data "ü".data s
  let s := replaceAll "�".data "Ä".data s
  let s := replaceAll "�".data "Ö".data s
  let s := replaceAll "�".data "Ü".data s
  let s := replaceAll "�".data "ß".data s
  let s := replaceAll "�".data "é".data s
  let s := replaceAll "�".data "è".data s
  let s := replaceAll "k�mpfer".data "kämpfer".data s
  let s := replaceAll "anf�hrer".data "anführer".data s
  let s := replaceAll "B�ser".data "Böser".data s
  let s := replaceAll "f�r".data "für".data s
  s

/-- The candidate encoding list of `load_file_fast`, in source order. -/
def encodings_to_try : List String := ["cp949", "euc-kr", "utf-8", "utf-8-sig", "latin1", "cp1252"]

/-- The encoding loop of `load_file_fast` over a decoder family `dec`
(a decoder returns `none` exactly when Python raises `UnicodeDecodeError`):
try each candidate in order, returning the first successful decode
together with the encoding name stored in `self.file_encoding`. -/
def tryEncodings (dec : String → List Nat → Option Txt) :
    List String → List Nat → Option (Txt × String)
  | [], _ => none
  | e :: rest, bs =>
    match dec e bs with
    | some t => some (t, e)
    | none => tryEncodings dec rest bs

/-- The whole encoding-resolution phase of `load_file_fast`: the candidate
loop, then — only if every candidate failed — the raw-bytes fallback
`content.decode('utf-8', errors='replace')` (a total lossy decoder,
abstracted as `lossy` since it lives in the Python runtime, not in this
repository); the second component is the reported encoding, `none` meaning
the fallback was taken and `self.file_encoding` was never assigned. -/
def load_decode (dec : String → List Nat → Option Txt) (lossy : List Nat → Txt)
    (bs : List Nat) : Txt × Option String :=
  match tryEncodings dec encodings_to_try bs with
  | some (t, e) => (t, some e)
  | none => (lossy bs, none)

/-- The latin-1 (ISO-8859-1) decoder: every byte decodes to the code point
of the same value, so decoding never fails.  This is the one concrete
codec the claims depend on; the remaining codecs are external to the
repository and are abstracted in `Codecs`. -/
def latin1Decode (bs : List Nat) : Option Txt := some (bs.map Char.ofNat)

/-- The codecs `load_file_fast` consults that live in the Python codec
library, abstracted as arbitrary decoder functions, plus the lossy
`errors='replace'` decoder of the fallback branch. -/
structure Codecs where
  cp949 : List Nat → Option Txt
  euckr : List Nat → Option Txt
  utf8 : List Nat → Option Txt
  utf8sig : List Nat → Option Txt
  cp1252 : List Nat → Option Txt
  lossyUtf8 : List Nat → Txt

/-- The decoder family `load_file_fast` actually runs: each candidate name
dispatches to its codec, with `latin1` the concrete total byte decoder. -/
def realDecode (c : Codecs) (e : String) (bs : List Nat) : Option Txt :=
  if e = "cp949" then c.cp949 bs
  else if e = "euc-kr" then c.euckr bs
  else if e = "utf-8" then c.utf8 bs
  else if e = "utf-8-sig" then c.utf8sig bs
  else if e = "latin1" then latin1Decode bs
  else if e = "cp1252" then c.cp1252 bs
  else none

/-- The backup path of `save_to_file`:
`f"{file_path}.backup_{datetime.now().strftime('%Y%m%d_%H%M%S')}"`, with
the wall-clock timestamp text passed in as a parameter. -/
def backup_path (path ts : Txt) : Txt := path ++ ".backup_".data ++ ts

/-- A file system is modelled as a map from path to file content. -/
def fsUpdate (fs : Txt → Option Txt) (p v : Txt) : Txt → Option Txt :=
  fun q => if q = p then some v else fs q

/-- The effect of `save_to_file` on the file system: when the target
exists, first copy it to the timestamped backup path — `backupOk` says
whether `shutil.copy2` succeeds; if it raises, the surrounding `try`
aborts the save before anything is written — then write the serialized
table to the target as UTF-8.  The Boolean result distinguishes the
success message from the error dialog. -/
def save_to_file (fs : Txt → Option Txt) (path ts : Txt) (headers : List Txt)
    (rows : List (List Txt)) (backupOk : Bool) : (Txt → Option Txt) × Bool :=
  match fs path with
  | some old =>
    if backupOk then
      (fsUpdate (fsUpdate fs (backup_path path ts) old) path (saveContent headers rows), true)
    else (fs, false)
  | none => (fsUpdate fs path (saveContent headers rows), true)

/-- A concrete name lookup used to exercise the name-resolution theorems. -/
def demoNames : Txt → Option Txt :=
  fun v => if v = "9001".data then some "Höllenwolf".data else none

/-- A concrete decoder family used to exercise the resolver theorems:
only `utf-8` succeeds. -/
def demoDec : String → List Nat → Option Txt :=
  fun e _ => if e = "utf-8" then some ['x'] else none

/-- A concrete lossy decoder used to exercise the resolver theorems. -/
def demoLossy : List Nat → Txt := fun _ => ['?']

/-- A concrete one-file file system used to exercise the save theorem. -/
def demoFs : Txt → Option Txt :=
  fun p => if p = "mob_proto.txt".data then some "old".data else none

/-- UTF-8 encoding of one code point (1 to 4 bytes), as performed by
`f.write(content)` on a file opened with `encoding='utf-8'`. -/
def utf8Char (c : Char) : List Nat :=
  let n := c.toNat
  if n < 128 then [n]
  else if n < 2048 then [0xC0 + n / 64, 0x80 + n % 64]
  else if n < 65536 then [0xE0 + n / 4096, 0x80 + (n / 64) % 64, 0x80 + n % 64]
  else [0xF0 + n / 262144, 0x80 + (n / 4096) % 64, 0x80 + (n / 64) % 64, 0x80 + n % 64]

/-- UTF-8 encoding of a text, byte by byte. -/
def utf8Encode (t : Txt) : List Nat := (t.map utf8Char).flatten

/-- The whole loading pipeline of `load_file_fast` on raw file bytes:
decode through the candidate-encoding chain, then split, strip, drop
blanks, tab-split and pad.  Only the table matters here, not the reported
encoding name. -/
def load_file_fast (c : Codecs) (bs : List Nat) : Option (List Txt × List (List Txt)) :=
  loadTable (load_decode (realDecode c) c.lossyUtf8 bs).1

/-- A concrete codec family for the round-trip theorems: `cp949` decodes
pure-ASCII byte sequences as themselves (as the real cp949 does) and
rejects everything else; the later candidates and the lossy fallback are
immaterial and kept trivial. -/
def demoCodecsA : Codecs :=
  { cp949 := fun bs => if ∀ b ∈ bs, b < 128 then some (bs.map Char.ofNat) else none
    euckr := fun _ => none
    utf8 := fun _ => none
    utf8sig := fun _ => none
    cp1252 := fun _ => none
    lossyUtf8 := fun _ => [] }

theorem get_mob_name_idem (names : Txt → Option Txt) (v orig : Txt) :
    get_mob_name names v (get_mob_name names v orig) = get_mob_name names v orig := by
  unfold get_mob_name
  cases hn : names v with
  | some n => rfl
  | none =>
    by_cases hok : orig ≠ [] ∧ orig ∉ placeholderNames
    · rw [if_pos hok, if_pos hok]
    · rw [if_neg hok, ite_self]

theorem resolveRow_cons (headers : List Txt) (names : Txt → Option Txt) (a b : Txt)
    (t : List Txt) (h1 : headers.get? 1 = some "NAME".data) :
    resolveRow headers names (a :: b :: t) = a :: get_mob_name names a b :: t := by
  unfold resolveRow
  rw [if_pos ⟨h1, by simp⟩]
  rfl

theorem resolveRow_idem (headers : List Txt) (names : Txt → Option Txt) (row : List Txt) :
    resolveRow headers names (resolveRow headers names row) = resolveRow headers names row := by
  by_cases hc : headers.get? 1 = some "NAME".data ∧ 2 ≤ row.length
  · obtain ⟨h1, h2⟩ := hc
    rcases row with _ | ⟨a, _ | ⟨b, t⟩⟩
    · exact absurd h2 (by simp)
    · exact absurd h2 (by simp)
    · rw [resolveRow_cons headers names a b t h1, resolveRow_cons headers names a _ t h1,
        get_mob_name_idem]
  · unfold resolveRow
    rw [if_neg hc, if_neg hc]

/-- C7: name resolution is idempotent — applying the row-renderer name
resolution pass of `setup_table` twice against a fixed `NameLookup`
produces the same stored name fields (which are also the displayed names)
as applying it once. -/
theorem c7_name_resolution_idempotent (headers : List Txt) (names : Txt → Option Txt)
    (grid : List (List Txt)) :
    resolveGrid headers names (resolveGrid headers names grid) =
      resolveGrid headers names grid := by
  unfold resolveGrid
  rw [List.map_map]
  refine List.map_congr_left ?_
  intro r _
  exact resolveRow_idem headers names r

/-- C3: when the header at position 1 is `NAME`, a row whose id is a key of
the lookup gets the looked-up value as resolved name, overwriting the
stored field at position 1; an id that is absent keeps a non-empty,
non-placeholder original name; otherwise the resolved name is `"Mob "`
followed by the id.  When the second header column is not `NAME`, no row
of any grid is altered. -/
theorem c3_name_resolution_rules (headers : List Txt) (names : Txt → Option Txt)
    (row : List Txt) (grid : List (List Txt)) :
    (headers.get? 1 = some "NAME".data → 2 ≤ row.length →
      ((∀ n, names (row.headD []) = some n →
          resolveRow headers names row = row.set 1 n ∧
          (resolveRow headers names row).get? 1 = some n) ∧
       (names (row.headD []) = none → row.getD 1 [] ≠ [] →
          row.getD 1 [] ∉ placeholderNames →
          resolveRow headers names row = row) ∧
       (names (row.headD []) = none →
          (row.getD 1 [] = [] ∨ row.getD 1 [] ∈ placeholderNames) →
          resolveRow headers names row = row.set 1 ("Mob ".data ++ row.headD [])))) ∧
    (headers.get? 1 ≠ some "NAME".data → resolveGrid headers names grid = grid) := by
  constructor
  · intro h1 h2
    rcases row with _ | ⟨a, _ | ⟨b, t⟩⟩
    · exact absurd h2 (by simp)
    · exact absurd h2 (by simp)
    · have hr := resolveRow_cons headers names a b t h1
      refine ⟨?_, ?_, ?_⟩
      · intro n hn
        have hg : get_mob_name names a b = n := by
          unfold get_mob_name
          simp only [List.headD] at hn
          rw [hn]
        rw [hr, hg]
        exact ⟨rfl, rfl⟩
      · intro hn hne hnm
        have hg : get_mob_name names a b = b := by
          unfold get_mob_name
          simp only [List.headD] at hn
          simp only [List.getD] at hne hnm
          rw [hn, if_pos ⟨by simpa using hne, by simpa using hnm⟩]
        rw [hr, hg]
      · intro hn hor
        have hg : get_mob_name names a b = "Mob ".data ++ a := by
          unfold get_mob_name
          simp only [List.headD] at hn
          rw [hn, if_neg]
          intro hok
          rcases hor with h | h
          · exact hok.1 (by simpa using h)
          · exact hok.2 (by simpa using h)
        rw [hr, hg]
        rfl
  · intro h1
    unfold resolveGrid
    have hrow : ∀ r : List Txt, resolveRow headers names r = r := by
      intro r
      unfold resolveRow
      rw [if_neg]
      exact fun hc => h1 hc.1
    exact (List.map_congr_left fun r _ => hrow r).trans (List.map_id grid)

/-- Witness for C3: id `9999` absent from the lookup with an empty original
name resolves to `Mob 9999`, written into the row at position 1. -/
theorem c3_witness :
    resolveRow ["VNUM".data, "NAME".data] demoNames ["9999".data, []] =
      ["9999".data, "Mob 9999".data] := by
  have h := (c3_name_resolution_rules ["VNUM".data, "NAME".data] demoNames
    ["9999".data, []] []).1 (by decide) (by decide)
  have h3 := h.2.2 (by decide) (Or.inl (by decide))
  rw [h3]
  decide

/-- C8: evaluation of the character-repair chain at the failing input.  In
the source every one of the nine character-level patterns is the same
single character U+FFFD, so the first replacement maps every corrupted
sequence to `ä` and the remaining replacements (including the word-level
`B�ser → Böser` fix) are dead: the o-umlaut name `B�ser` comes out as
`Bäser`, never containing `ö`, contradicting the claim that each entry
repairs its own corrupted sequence to its own distinct character. -/
theorem c8_repair_chain_eval :
    fixName "B�ser".data = "Bäser".data ∧
    fixName "B�ser".data ≠ "Böser".data ∧
    'ö' ∉ fixName "B�ser".data ∧
    fixName "�".data = "ä".data ∧
    fixName "f�r".data = "fär".data ∧
    fixName "f�r".data ≠ "für".data := by
  decide

theorem tryEncodings_first (dec : String → List Nat → Option Txt) (bs : List Nat) :
    ∀ (pre : List String) (e : String) (suf : List String) (t : Txt),
      (∀ e' ∈ pre, dec e' bs = none) → dec e bs = some t →
      tryEncodings dec (pre ++ e :: suf) bs = some (t, e) := by
  intro pre
  induction pre with
  | nil =>
    intro e suf t _ he
    simp [tryEncodings, he]
  | cons p ps ih =>
    intro e suf t hpre he
    have hp : dec p bs = none := hpre p (by simp)
    simpa [tryEncodings, hp] using ih e suf t (fun e' h => hpre e' (by simp [h])) he

theorem tryEncodings_all_fail (dec : String → List Nat → Option Txt) (bs : List Nat) :
    ∀ l : List String, (∀ e ∈ l, dec e bs = none) → tryEncodings dec l bs = none := by
  intro l
  induction l with
  | nil => intro _; rfl
  | cons p ps ih =>
    intro h
    have hp : dec p bs = none := h p (by simp)
    simpa [tryEncodings, hp] using ih fun e he => h e (by simp [he])

/-- C4: the encoding resolver tries `cp949`, `euc-kr`, `utf-8`,
`utf-8-sig`, `latin1`, `cp1252` strictly in that order, returns the
decoded text and name of the first candidate that decodes without error,
and when every candidate fails it returns the lossy replace-decoded text;
in every case it returns text (it is a total function). -/
theorem c4_encoding_resolver_order (dec : String → List Nat → Option Txt)
    (lossy : List Nat → Txt) (bs : List Nat) :
    (∀ (pre : List String) (e : String) (suf : List String) (t : Txt),
        encodings_to_try = pre ++ e :: suf →
        (∀ e' ∈ pre, dec e' bs = none) → dec e bs = some t →
        load_decode dec lossy bs = (t, some e)) ∧
    ((∀ e ∈ encodings_to_try, dec e bs = none) →
        load_decode dec lossy bs = (lossy bs, none)) := by
  constructor
  · intro pre e suf t horder hpre he
    unfold load_decode
    rw [horder, tryEncodings_first dec bs pre e suf t hpre he]
  · intro hall
    unfold load_decode
    rw [tryEncodings_all_fail dec bs encodings_to_try hall]

/-- Witness for C4: with a decoder family where only `utf-8` succeeds the
resolver reports `utf-8`, and with one where everything fails it returns
the lossy decode and no encoding name. -/
theorem c4_witness :
    load_decode demoDec demoLossy [] = (['x'], some "utf-8") ∧
    load_decode (fun _ _ => none) demoLossy [0] = (demoLossy [0], none) := by
  constructor
  · exact (c4_encoding_resolver_order demoDec demoLossy []).1 ["cp949", "euc-kr"] "utf-8"
      ["utf-8-sig", "latin1", "cp1252"] ['x'] rfl (by decide) rfl
  · exact (c4_encoding_resolver_order (fun _ _ => none) demoLossy [0]).2 (fun _ _ => rfl)

/-- C10: whatever the external codecs do, the `latin1` candidate decodes
every byte sequence, so the candidate loop always succeeds with one of the
first five encodings, `cp1252` is never the selected encoding, and the
raw-bytes lossy fallback branch of `load_file_fast` is unreachable. -/
theorem c10_latin1_total (c : Codecs) (bs : List Nat) :
    ∃ t e, tryEncodings (realDecode c) encodings_to_try bs = some (t, e) ∧
      e ∈ ["cp949", "euc-kr", "utf-8", "utf-8-sig", "latin1"] ∧ e ≠ "cp1252" ∧
      load_decode (realDecode c) c.lossyUtf8 bs = (t, some e) := by
  cases h1 : c.cp949 bs with
  | some t =>
    exact ⟨t, "cp949", by simp [tryEncodings, encodings_to_try, realDecode, h1], by decide,
      by decide, by simp [load_decode, tryEncodings, encodings_to_try, realDecode, h1]⟩
  | none =>
    cases h2 : c.euckr bs with
    | some t =>
      exact ⟨t, "euc-kr", by simp [tryEncodings, encodings_to_try, realDecode, h1, h2], by decide,
        by decide, by simp [load_decode, tryEncodings, encodings_to_try, realDecode, h1, h2]⟩
    | none =>
      cases h3 : c.utf8 bs with
      | some t =>
        exact ⟨t, "utf-8", by simp [tryEncodings, encodings_to_try, realDecode, h1, h2, h3],
          by decide, by decide,
          by simp [load_decode, tryEncodings, encodings_to_try, realDecode, h1, h2, h3]⟩
      | none =>
        cases h4 : c.utf8sig bs with
        | some t =>
          exact ⟨t, "utf-8-sig",
            by simp [tryEncodings, encodings_to_try, realDecode, h1, h2, h3, h4], by decide,
            by decide,
            by simp [load_decode, tryEncodings, encodings_to_try, realDecode, h1, h2, h3, h4]⟩
        | none =>
          exact ⟨bs.map Char.ofNat, "latin1",
            by simp [tryEncodings, encodings_to_try, realDecode, latin1Decode, h1, h2, h3, h4],
            by decide, by decide,
            by simp [load_decode, tryEncodings, encodings_to_try, realDecode, latin1Decode,
              h1, h2, h3, h4]⟩

theorem backup_path_ne (path ts : Txt) : backup_path path ts ≠ path := by
  intro h
  have hlen := congrArg List.length h
  rw [backup_path, List.append_assoc, List.length_append, List.length_append] at hlen
  have h8 : (".backup_".data : Txt).length = 8 := rfl
  omega

/-- C6: saving over an existing target first copies its prior content to
the path obtained by appending `.backup_` and the timestamp; on success
the backup holds the prior content and the target holds the serialized
table, while a backup failure aborts the save with the file system — in
particular the original file — completely untouched. -/
theorem c6_backup_before_save (fs : Txt → Option Txt) (path ts : Txt) (headers : List Txt)
    (rows : List (List Txt)) (old : Txt) (hfs : fs path = some old) :
    ((save_to_file fs path ts headers rows true).2 = true ∧
     (save_to_file fs path ts headers rows true).1 (backup_path path ts) = some old ∧
     (save_to_file fs path ts headers rows true).1 path = some (saveContent headers rows)) ∧
    save_to_file fs path ts headers rows false = (fs, false) := by
  have hne := backup_path_ne path ts
  refine ⟨⟨?_, ?_, ?_⟩, ?_⟩
  · simp [save_to_file, hfs]
  · simp [save_to_file, hfs, fsUpdate, hne]
  · simp [save_to_file, hfs, fsUpdate]
  · simp [save_to_file, hfs]

/-- Witness for C6 at a concrete one-file file system: a successful backup
leaves the old bytes at the backup path, and a failed backup returns the
file system unchanged with the failure flag. -/
theorem c6_witness :
    (save_to_file demoFs "mob_proto.txt".data "20251012_120000".data ["A".data] [] true).1
        (backup_path "mob_proto.txt".data "20251012_120000".data) = some "old".data ∧
    save_to_file demoFs "mob_proto.txt".data "20251012_120000".data ["A".data] [] false =
      (demoFs, false) := by
  have h := c6_backup_before_save demoFs "mob_proto.txt".data "20251012_120000".data
    ["A".data] [] "old".data (by decide)
  exact ⟨h.1.2.1, h.2⟩

theorem qMul_eq (a b : ℚ) : qMul a b = a * b := by
  unfold qMul
  rw [Rat.mkRat_eq_div]
  push_cast
  conv_rhs => rw [← Rat.num_div_den a, ← Rat.num_div_den b]
  rw [div_mul_div_comm]

theorem qAdd_eq (a b : ℚ) : qAdd a b = a + b := by
  unfold qAdd
  rw [Rat.mkRat_eq_div]
  push_cast
  conv_rhs => rw [← Rat.num_div_den a, ← Rat.num_div_den b]
  have ha : (a.den : ℚ) ≠ 0 := Nat.cast_ne_zero.mpr a.den_nz
  have hb : (b.den : ℚ) ≠ 0 := Nat.cast_ne_zero.mpr b.den_nz
  field_simp

theorem qNeg_eq (a : ℚ) : qNeg a = -a := by
  unfold qNeg
  rw [Rat.mkRat_eq_div]
  push_cast
  rw [neg_div, Rat.num_div_den]

/-- C1 counterexample: the claim reads the operation as exact arithmetic
on the numbers the texts denote, but the program computes in binary64
floats.  The cell `"1.15"` times the operand `"100"` denotes exactly
`115`, whose truncation renders as `"115"`; the program's
`float("1.15") * float("100")` is `114.99999999999999`, so
`apply_mass_changes` writes `"114"`. -/
theorem c1_counterexample :
    exactDecimalValue "1.15".data = some (mkRat 23 20) ∧
    exactDecimalValue "100".data = some (mkRat 100 1) ∧
    (mkRat 23 20 : ℚ) * mkRat 100 1 = mkRat 115 1 ∧
    intToText (truncQ (mkRat 115 1)) = "115".data ∧
    applyCell "multiply".data "100".data "1.15".data = some "114".data ∧
    "114".data ≠ "115".data := by
  refine ⟨by decide, by decide, ?_, by decide, by decide, by decide⟩
  rw [Rat.mkRat_eq_div, Rat.mkRat_eq_div, Rat.mkRat_eq_div]
  norm_num

/-- C1 (amended): a mass-edit application with operation `multiply`, `add`
or `set` reads an empty or missing cell as the float `0.0` (clause 1); an
ASCII cell whose text fails `float()` makes only that one (row, column)
application a skip while the rest of the batch still runs (clauses 2
and 8); a parsed cell goes through `computeCell` (clause 3), which for the
three operations always receives a result (clause 4), writes a finite
binary64 result back as the toward-zero integer truncation rendered as
text (clause 5), and skips a NaN result (clause 6); on finite floats
`multiply` and `add` are the correctly-rounded exact product and sum
(clause 7).  The arithmetic is binary64, not exact: `101` multiplied by
`2.5` is float-exact and yields `"252"` (clause 9), but `1.15` multiplied
by `100` yields `"114"`, not the `"115"` of the exact reading (clause 10). -/
theorem c1_mass_edit_semantics (op operand cell : Txt) (vf : F64)
    (hop : op = "multiply".data ∨ op = "add".data ∨ op = "set".data)
    (hv : parseF operand = some vf) :
    (cell = [] → applyCell op operand cell = computeCell op (F64.finite 0) vf) ∧
    ((∀ ch ∈ cell, ch.toNat < 128) → cell ≠ [] → parseF cell = none →
      applyCell op operand cell = none) ∧
    (∀ curf : F64, cell ≠ [] → parseF cell = some curf →
      applyCell op operand cell = computeCell op curf vf) ∧
    (∀ curf : F64, opResult op curf vf ≠ none) ∧
    (∀ (curf : F64) (r : ℚ), opResult op curf vf = some (F64.finite r) →
      computeCell op curf vf = some (intToText (truncQ r))) ∧
    (∀ curf : F64, opResult op curf vf = some F64.nan → computeCell op curf vf = none) ∧
    (∀ a b : ℚ, mulF (F64.finite a) (F64.finite b) = roundF (a * b) ∧
      addF (F64.finite a) (F64.finite b) = roundF (a + b)) ∧
    (∀ (headers : List Txt) (sp : MassSpec) (rest : List MassSpec) (row : List Txt) (i : Nat),
      findColIndex headers sp.col = some i →
      applyCell sp.op sp.operand (row.getD i []) = none →
      applyOneSpec headers sp row = (row, 0) ∧
      applySpecsToRow headers (sp :: rest) row = applySpecsToRow headers rest row) ∧
    applyCell "multiply".data "2.5".data "101".data = some "252".data ∧
    applyCell "multiply".data "100".data "1.15".data = some "114".data := by
  refine ⟨?_, ?_, ?_, ?_, ?_, ?_, ?_, ?_, ?_, ?_⟩
  · intro hc
    subst hc
    show (match parseF operand with
      | none => none
      | some v => computeCell op (F64.finite 0) v) = computeCell op (F64.finite 0) vf
    rw [hv]
  · intro _ hne hpn
    unfold applyCell
    simp only [if_neg hne, hpn]
  · intro curf hne hpc
    unfold applyCell
    simp only [if_neg hne, hpc, hv]
  · intro curf
    rcases hop with h | h | h <;> subst h <;> unfold opResult
    · rw [if_pos rfl]
      simp
    · rw [if_neg (by decide), if_pos rfl]
      simp
    · rw [if_neg (by decide), if_neg (by decide), if_pos rfl]
      simp
  · intro curf r hres
    unfold computeCell
    rw [hres]
  · intro curf hres
    unfold computeCell
    rw [hres]
  · intro a b
    constructor
    · rw [show mulF (F64.finite a) (F64.finite b) = roundF (qMul a b) from rfl, qMul_eq]
    · rw [show addF (F64.finite a) (F64.finite b) = roundF (qAdd a b) from rfl, qAdd_eq]
  · intro headers sp rest row i hfind happly
    have h1 : applyOneSpec headers sp row = (row, 0) := by
      unfold applyOneSpec
      simp only [hfind, happly]
    refine ⟨h1, ?_⟩
    simp only [applySpecsToRow, h1]
    simp
  · decide
  · decide

/-- Witness for C1: the truncation example of the spec, obtained from the
theorem at operand `2.5`. -/
theorem c1_witness : applyCell "multiply".data "2.5".data "101".data = some "252".data :=
  (c1_mass_edit_semantics "multiply".data "2.5".data "101".data
    (F64.finite (mkRat 5 2)) (Or.inl rfl) (by decide)).2.2.2.2.2.2.2.2.1

theorem padRow_length_of_lt (n : Nat) (raw : List Txt) (h : raw.length < n) :
    (padRow n raw).length = n := by
  unfold padRow
  rw [List.length_append, List.length_replicate]
  omega

theorem padRow_of_ge (n : Nat) (raw : List Txt) (h : n ≤ raw.length) :
    padRow n raw = raw := by
  unfold padRow
  rw [Nat.sub_eq_zero_of_le h]
  simp

/-- C2: every data row the loader produces is the tab-split of one of the
normalised input lines padded to the header width — a row parsed with
fewer fields than the header becomes exactly header-many fields with the
missing trailing fields empty, and a row with at least header-many fields
is kept whole, never truncated. -/
theorem c2_row_padding (content : Txt) (H : List Txt) (R : List (List Txt))
    (h : loadTable content = some (H, R)) :
    ∀ r ∈ R, ∃ line raw, line ∈ parseLines content ∧ raw = splitOnC '\t' line ∧
      r = padRow H.length raw ∧
      (raw.length < H.length →
        r = raw ++ List.replicate (H.length - raw.length) [] ∧ r.length = H.length) ∧
      (H.length ≤ raw.length → r = raw) := by
  intro r hr
  unfold loadTable at h
  cases hp : parseLines content with
  | nil =>
    rw [hp] at h
    exact absurd h (by simp)
  | cons hl rest =>
    rw [hp] at h
    simp only [Option.some.injEq, Prod.mk.injEq] at h
    obtain ⟨hH, hR⟩ := h
    subst hH
    subst hR
    obtain ⟨line, hline, hrf⟩ := List.mem_map.mp hr
    refine ⟨line, splitOnC '\t' line, List.mem_cons_of_mem _ hline, rfl, ?_, ?_, ?_⟩
    · exact hrf.symm
    · intro hlt
      exact ⟨hrf.symm, by rw [← hrf]; exact padRow_length_of_lt _ _ hlt⟩
    · intro hge
      rw [← hrf]
      exact padRow_of_ge _ _ hge

/-- Witness for C2: a three-column header with a one-field data row, which
the loader pads to exactly three fields with two trailing empties. -/
theorem c2_witness : ∃ line raw, line ∈ parseLines "A\tB\tC\nx\n".data ∧
    raw = splitOnC '\t' line ∧
    ([['x'], [], []] : List Txt) = padRow ([['A'], ['B'], ['C']] : List Txt).length raw ∧
    (raw.length < ([['A'], ['B'], ['C']] : List Txt).length →
      ([['x'], [], []] : List Txt) =
        raw ++ List.replicate (([['A'], ['B'], ['C']] : List Txt).length - raw.length) [] ∧
      ([['x'], [], []] : List Txt).length = ([['A'], ['B'], ['C']] : List Txt).length) ∧
    (([['A'], ['B'], ['C']] : List Txt).length ≤ raw.length →
      ([['x'], [], []] : List Txt) = raw) :=
  c2_row_padding "A\tB\tC\nx\n".data [['A'], ['B'], ['C']] [[['x'], [], []]] (by decide)
    [['x'], [], []] (by decide)

theorem findColIndex_get (headers : List Txt) (name : Txt) :
    ∀ i, findColIndex headers name = some i → headers.get? i = some name := by
  induction headers with
  | nil => intro i h; exact Option.noConfusion h
  | cons h t ih =>
    intro i hf
    unfold findColIndex at hf
    by_cases he : h = name
    · rw [if_pos he] at hf
      obtain rfl : 0 = i := Option.some.inj hf
      simp [List.get?, he]
    · rw [if_neg he] at hf
      cases hj : findColIndex t name with
      | none => rw [hj] at hf; exact Option.noConfusion hf
      | some j =>
        rw [hj] at hf
        simp only [Option.map_some'] at hf
        obtain rfl : j + 1 = i := Option.some.inj hf
        simpa [List.get?] using ih j hj

theorem applyOneSpec_frame (headers : List Txt) (sp : MassSpec) (row : List Txt) (c : Nat)
    (h : (applyOneSpec headers sp row).1.get? c ≠ row.get? c) :
    headers.get? c = some sp.col := by
  unfold applyOneSpec at h
  cases hf : findColIndex headers sp.col with
  | none => simp only [hf] at h; exact absurd rfl h
  | some i =>
    simp only [hf] at h
    cases ha : applyCell sp.op sp.operand (row.getD i []) with
    | none => simp only [ha] at h; exact absurd rfl h
    | some t =>
      simp only [ha] at h
      by_cases hic : i = c
      · subst hic
        exact findColIndex_get headers sp.col i hf
      · exact absurd (List.get?_set_ne t row hic) h

theorem applySpecsToRow_frame (headers : List Txt) (specs : List MassSpec) :
    ∀ (row : List Txt) (c : Nat),
      (applySpecsToRow headers specs row).1.get? c ≠ row.get? c →
      ∃ sp ∈ specs, headers.get? c = some sp.col := by
  induction specs with
  | nil => intro row c h; exact absurd rfl h
  | cons sp rest ih =>
    intro row c h
    have hunf : (applySpecsToRow headers (sp :: rest) row).1 =
        (applySpecsToRow headers rest (applyOneSpec headers sp row).1).1 := rfl
    rw [hunf] at h
    by_cases hmid : (applyOneSpec headers sp row).1.get? c = row.get? c
    · obtain ⟨sp', hmem, hcol⟩ := ih _ c (fun heq => h (heq.trans hmid))
      exact ⟨sp', List.mem_cons_of_mem _ hmem, hcol⟩
    · exact ⟨sp, List.mem_cons_self _ _, applyOneSpec_frame headers sp row c hmid⟩

theorem applyRowStep_frame (headers : List Txt) (specs : List MassSpec)
    (acc : List (List Txt) × Nat) (t r c : Nat)
    (h : cellAt (applyRowStep headers specs acc t).1 r c ≠ cellAt acc.1 r c) :
    r = t ∧ ∃ sp ∈ specs, headers.get? c = some sp.col := by
  have hfst : (applyRowStep headers specs acc t).1 =
      acc.1.set t (applySpecsToRow headers specs (acc.1.getD t [])).1 := rfl
  unfold cellAt at h
  rw [hfst] at h
  by_cases hrt : r = t
  · subst hrt
    by_cases hlen : r < acc.1.length
    · cases hq : acc.1.get? r with
      | none => exact absurd (List.get?_eq_none.mp hq) (by omega)
      | some oldrow =>
        rw [List.get?_set_eq_of_lt _ hlen, hq] at h
        have hgd : acc.1.getD r [] = oldrow := by
          show (acc.1.get? r).getD [] = oldrow
          rw [hq]
          rfl
        rw [hgd] at h
        exact ⟨rfl, applySpecsToRow_frame headers specs oldrow c h⟩
    · rw [List.set_eq_of_length_le (Nat.le_of_not_lt hlen)] at h
      exact absurd rfl h
  · rw [List.get?_set_ne _ acc.1 (fun hh => hrt hh.symm)] at h
    exact absurd rfl h

theorem foldl_rows_frame (headers : List Txt) (specs : List MassSpec) :
    ∀ (tgts : List Nat) (acc : List (List Txt) × Nat) (r c : Nat),
      cellAt (tgts.foldl (applyRowStep headers specs) acc).1 r c ≠ cellAt acc.1 r c →
      r ∈ tgts ∧ ∃ sp ∈ specs, headers.get? c = some sp.col := by
  intro tgts
  induction tgts with
  | nil => intro acc r c h; exact absurd rfl h
  | cons t rest ih =>
    intro acc r c h
    rw [List.foldl_cons] at h
    by_cases hmid : cellAt (applyRowStep headers specs acc t).1 r c = cellAt acc.1 r c
    · obtain ⟨hr, hsp⟩ := ih (applyRowStep headers specs acc t) r c (fun heq => h (heq.trans hmid))
      exact ⟨List.mem_cons_of_mem _ hr, hsp⟩
    · obtain ⟨hrt, hsp⟩ := applyRowStep_frame headers specs acc t r c hmid
      exact ⟨hrt ▸ List.mem_cons_self t rest, hsp⟩

theorem foldl_rows_length (headers : List Txt) (specs : List MassSpec) :
    ∀ (tgts : List Nat) (acc : List (List Txt) × Nat),
      (tgts.foldl (applyRowStep headers specs) acc).1.length = acc.1.length := by
  intro tgts
  induction tgts with
  | nil => intro acc; rfl
  | cons t rest ih =>
    intro acc
    rw [List.foldl_cons, ih]
    exact List.length_set acc.1 t _

/-- C9: a mass-edit batch never touches the header, never changes the row
count, and the only cells that can change are at a (row, column) position
whose row is in the target selection (any row when the selection is empty)
and whose column header exactly equals the column name of some spec of the
batch. -/
theorem c9_mass_edit_frame (specs : List MassSpec) (sel : List Nat) (s : EditorState) :
    (apply_mass_changes specs sel s).1.headers = s.headers ∧
    (apply_mass_changes specs sel s).1.grid.length = s.grid.length ∧
    ∀ r c, cellAt (apply_mass_changes specs sel s).1.grid r c ≠ cellAt s.grid r c →
      (sel = [] ∨ r ∈ sel) ∧ ∃ sp ∈ specs, s.headers.get? c = some sp.col := by
  unfold apply_mass_changes
  by_cases hs : specs = []
  · rw [if_pos hs]
    exact ⟨rfl, rfl, fun r c h => absurd rfl h⟩
  · rw [if_neg hs]
    refine ⟨rfl, ?_, ?_⟩
    · exact foldl_rows_length s.headers specs
        (if sel = [] then List.range s.grid.length else sel) (s.grid, 0)
    · intro r c h
      obtain ⟨hr, hsp⟩ := foldl_rows_frame s.headers specs
        (if sel = [] then List.range s.grid.length else sel) (s.grid, 0) r c h
      refine ⟨?_, hsp⟩
      by_cases hsel : sel = []
      · exact Or.inl hsel
      · rw [if_neg hsel] at hr
        exact Or.inr hr

/-- Witness for C9: a one-spec batch on a two-column grid changes the EXP
cell, and the theorem names the matching header for it. -/
theorem c9_witness :
    (([] : List Nat) = [] ∨ 0 ∈ ([] : List Nat)) ∧
    ∃ sp ∈ [MassSpec.mk "EXP".data "multiply".data "2".data],
      (EditorState.mk ["VNUM".data, "EXP".data] [["1".data, "100".data]]).headers.get? 1 =
        some sp.col :=
  (c9_mass_edit_frame [MassSpec.mk "EXP".data "multiply".data "2".data] []
    (EditorState.mk ["VNUM".data, "EXP".data] [["1".data, "100".data]])).2.2 0 1
    (by decide)

theorem splitOnC_ne_nil (sep : Char) (s : Txt) : splitOnC sep s ≠ [] := by
  cases s with
  | nil => simp [splitOnC]
  | cons c rest =>
    cases h : splitOnC sep rest with
    | nil => simp [splitOnC, h]
    | cons t ts =>
      simp only [splitOnC, h]
      split <;> simp

theorem splitOnC_append_sep (sep : Char) (l r : Txt) (h : sep ∉ l) :
    splitOnC sep (l ++ sep :: r) = l :: splitOnC sep r := by
  induction l with
  | nil =>
    cases hsp : splitOnC sep r with
    | nil => exact absurd hsp (splitOnC_ne_nil sep r)
    | cons t ts => simp [splitOnC, hsp]
  | cons c l2 ih =>
    have hc : c ≠ sep := fun e => h (e ▸ List.mem_cons_self c l2)
    have hl : sep ∉ l2 := fun e => h (List.mem_cons_of_mem c e)
    have hstep : splitOnC sep (c :: (l2 ++ sep :: r)) =
        match splitOnC sep (l2 ++ sep :: r) with
        | [] => [[]]
        | t :: ts => if c = sep then [] :: t :: ts else (c :: t) :: ts := rfl
    rw [List.cons_append, hstep, ih hl]
    simp [hc]

theorem splitOnC_no_sep (sep : Char) (l : Txt) (h : sep ∉ l) : splitOnC sep l = [l] := by
  induction l with
  | nil => rfl
  | cons c rest ih =>
    have hc : c ≠ sep := fun e => h (e ▸ List.mem_cons_self c rest)
    have hr : sep ∉ rest := fun e => h (List.mem_cons_of_mem c e)
    simp [splitOnC, ih hr, hc]

theorem splitOnC_linesJoin (ls : List Txt) (h : ∀ l ∈ ls, '\n' ∉ l) :
    splitOnC '\n' (linesJoin ls) = ls ++ [[]] := by
  induction ls with
  | nil => rfl
  | cons l ls2 ih =>
    have hflat : linesJoin (l :: ls2) = l ++ '\n' :: linesJoin ls2 := by
      simp [linesJoin]
    rw [hflat, splitOnC_append_sep '\n' l _ (h l (List.mem_cons_self _ _)),
      ih (fun x hx => h x (List.mem_cons_of_mem _ hx))]
    rfl

theorem splitOnC_joinC (sep : Char) (xs : List Txt) (hne : xs ≠ [])
    (hmem : ∀ x ∈ xs, sep ∉ x) : splitOnC sep (joinC sep xs) = xs := by
  induction xs with
  | nil => exact absurd rfl hne
  | cons x rest ih =>
    cases rest with
    | nil => exact splitOnC_no_sep sep x (hmem x (List.mem_cons_self _ _))
    | cons y r2 =>
      rw [show joinC sep (x :: y :: r2) = x ++ sep :: joinC sep (y :: r2) from rfl,
        splitOnC_append_sep sep x _ (hmem x (List.mem_cons_self _ _)),
        ih (by simp) (fun z hz => hmem z (List.mem_cons_of_mem _ hz))]

theorem not_mem_joinC (sep c : Char) (xs : List Txt) (hc : c ≠ sep)
    (h : ∀ x ∈ xs, c ∉ x) : c ∉ joinC sep xs := by
  induction xs with
  | nil => simp [joinC]
  | cons x rest ih =>
    cases rest with
    | nil => exact h x (List.mem_cons_self _ _)
    | cons y r2 =>
      intro hmem
      rw [show joinC sep (x :: y :: r2) = x ++ sep :: joinC sep (y :: r2) from rfl] at hmem
      rcases List.mem_append.mp hmem with h1 | h1
      · exact h x (List.mem_cons_self _ _) h1
      · rcases List.mem_cons.mp h1 with h2 | h2
        · exact hc h2
        · exact ih (fun z hz => h z (List.mem_cons_of_mem _ hz)) h2

theorem collectRow_eq (n : Nat) (row : List Txt) (h : row.length = n) :
    collectRow n row = row := by
  subst h
  unfold collectRow
  apply List.ext_getElem?
  intro i
  by_cases hi : i < row.length
  · rw [List.getElem?_map _ _ i, List.getElem?_range hi]
    cases hq : row[i]? with
    | none => exact absurd (List.getElem?_eq_none_iff.mp hq) (by omega)
    | some v =>
      have hq' : row.get? i = some v := by
        rw [List.get?_eq_getElem?]
        exact hq
      have hg : row.getD i [] = v := by
        show (row.get? i).getD [] = v
        rw [hq']
        rfl
      simp [hg, hq]
  · have h1 : ((List.range row.length).map fun c => row.getD c [])[i]? = none := by
      refine List.getElem?_eq_none ?_
      rw [List.length_map, List.length_range]
      omega
    have h2 : row[i]? = none := List.getElem?_eq_none (by omega)
    rw [h1, h2]

theorem normNL_of_no_cr (t : Txt) (h : '\r' ∉ t) : normNL t = t := by
  induction t with
  | nil => rfl
  | cons c rest ih =>
    have hc : c ≠ '\r' := fun hcc => h (hcc ▸ List.mem_cons_self c rest)
    have hr : '\r' ∉ rest := fun hrr => h (List.mem_cons_of_mem c hrr)
    cases rest with
    | nil =>
      show (if c = '\r' then ['\n'] else [c]) = [c]
      rw [if_neg hc]
    | cons d rest2 =>
      show (if c = '\r' then
          if d = '\n' then '\n' :: normNL rest2 else '\n' :: normNL (d :: rest2)
        else c :: normNL (d :: rest2)) = c :: d :: rest2
      rw [if_neg hc, ih hr]

theorem mem_joinC (sep ch : Char) (xs : List Txt) (h : ch ∈ joinC sep xs) :
    ch = sep ∨ ∃ x ∈ xs, ch ∈ x := by
  induction xs with
  | nil =>
    rw [show joinC sep [] = [] from rfl] at h
    cases h
  | cons x rest ih =>
    cases rest with
    | nil =>
      right
      exact ⟨x, List.mem_cons_self x [], h⟩
    | cons y ys =>
      have h' : ch ∈ x ++ sep :: joinC sep (y :: ys) := h
      rcases List.mem_append.mp h' with h1 | h1
      · right
        exact ⟨x, List.mem_cons_self x _, h1⟩
      · rcases List.mem_cons.mp h1 with h2 | h2
        · left
          exact h2
        · rcases ih h2 with h3 | ⟨z, hz, hcz⟩
          · left
            exact h3
          · right
            exact ⟨z, List.mem_cons_of_mem x hz, hcz⟩

theorem mem_linesJoin (ch : Char) (ls : List Txt) (h : ch ∈ linesJoin ls) :
    ch = '\n' ∨ ∃ l ∈ ls, ch ∈ l := by
  unfold linesJoin at h
  obtain ⟨seg, hseg, hcseg⟩ := List.mem_flatten.mp h
  obtain ⟨l, hl, hle⟩ := List.mem_map.mp hseg
  rw [← hle] at hcseg
  rcases List.mem_append.mp hcseg with h1 | h1
  · right
    exact ⟨l, hl, h1⟩
  · left
    exact List.mem_singleton.mp h1

theorem not_mem_linesJoin (c : Char) (ls : List Txt) (hc : c ≠ '\n')
    (h : ∀ l ∈ ls, c ∉ l) : c ∉ linesJoin ls := by
  intro hmem
  rcases mem_linesJoin c ls hmem with h1 | ⟨l, hl, hcl⟩
  · exact hc h1
  · exact h l hl hcl

theorem utf8Char_ascii (c : Char) (h : c.toNat < 128) : utf8Char c = [c.toNat] := by
  unfold utf8Char
  rw [if_pos h]

theorem utf8Encode_ascii (t : Txt) (h : ∀ ch ∈ t, ch.toNat < 128) :
    utf8Encode t = t.map Char.toNat := by
  unfold utf8Encode
  induction t with
  | nil => rfl
  | cons c rest ih =>
    rw [List.map_cons, List.flatten_cons, utf8Char_ascii c (h c (List.mem_cons_self c rest)),
      ih (fun ch hch => h ch (List.mem_cons_of_mem c hch)), List.map_cons]
    rfl

/-- C5 counterexample: the round trip fails at the byte level exactly where
the loader's normalisations bite.  A table whose single row is one empty
field serializes to a blank data line, which the strip-and-drop pass
deletes, so the reloaded table has no rows at all; and a field containing
a bare carriage return is split in two by the text-mode universal-newline
translation, turning one row into two. -/
theorem c5_counterexample :
    load_file_fast demoCodecsA (utf8Encode (saveContent [['A']] [[[]]])) =
      some ([['A']], []) ∧
    load_file_fast demoCodecsA (utf8Encode (saveContent [['A']] [[[]]])) ≠
      some ([['A']], [[[]]]) ∧
    load_file_fast demoCodecsA (utf8Encode (saveContent [['A']] [[['x', '\r', 'y']]])) =
      some ([['A']], [[['x']], [['y']]]) := by
  decide

/-- C5 (amended): the save-then-load round trip — UTF-8 bytes written by
the Persistence Writer, decoded back through the candidate-encoding chain
and re-parsed — reproduces the Header and Rows exactly for every table
whose fields are ASCII and contain no tab, newline or carriage return,
whose rows have header width, and whose serialized lines are non-blank and
unchanged by whitespace stripping.  The cp949 codec lives outside this
program; the hypothesis `hcp` records the one fact used about it, ASCII
transparency, which makes the first candidate of the chain succeed and
return the written text unchanged. -/
theorem c5_roundtrip (c : Codecs) (headers : List Txt) (rows : List (List Txt))
    (hcp : ∀ bs : List Nat, (∀ b ∈ bs, b < 128) → c.cp949 bs = some (bs.map Char.ofNat))
    (hhf : ∀ f ∈ headers, '\t' ∉ f ∧ '\n' ∉ f ∧ '\r' ∉ f ∧ ∀ ch ∈ f, ch.toNat < 128)
    (hrf : ∀ r ∈ rows, ∀ f ∈ r, '\t' ∉ f ∧ '\n' ∉ f ∧ '\r' ∉ f ∧ ∀ ch ∈ f, ch.toNat < 128)
    (hlen : ∀ r ∈ rows, r.length = headers.length)
    (hhl : trimC (joinC '\t' headers) = joinC '\t' headers ∧ joinC '\t' headers ≠ [])
    (hrl : ∀ r ∈ rows, trimC (joinC '\t' r) = joinC '\t' r ∧ joinC '\t' r ≠ []) :
    load_file_fast c (utf8Encode (saveContent headers rows)) = some (headers, rows) := by
  have hcr : rows.map (fun r => joinC '\t' (collectRow headers.length r)) =
      rows.map (joinC '\t') :=
    List.map_congr_left (fun r hr => by rw [collectRow_eq headers.length r (hlen r hr)])
  have hsave : saveContent headers rows =
      linesJoin (joinC '\t' headers :: rows.map (joinC '\t')) := by
    unfold saveContent
    rw [hcr]
  have hascii : ∀ ch ∈ saveContent headers rows, ch.toNat < 128 := by
    rw [hsave]
    intro ch hch
    rcases mem_linesJoin ch _ hch with h1 | ⟨l, hl, hcl⟩
    · subst h1
      decide
    · rcases List.mem_cons.mp hl with h2 | h2
      · subst h2
        rcases mem_joinC '\t' ch headers hcl with h3 | ⟨f, hf, hcf⟩
        · subst h3
          decide
        · exact (hhf f hf).2.2.2 ch hcf
      · obtain ⟨r, hr, hre⟩ := List.mem_map.mp h2
        rw [← hre] at hcl
        rcases mem_joinC '\t' ch r hcl with h3 | ⟨f, hf, hcf⟩
        · subst h3
          decide
        · exact (hrf r hr f hf).2.2.2 ch hcf
  have henc : utf8Encode (saveContent headers rows) =
      (saveContent headers rows).map Char.toNat := utf8Encode_ascii _ hascii
  have hbs : ∀ b ∈ utf8Encode (saveContent headers rows), b < 128 := by
    rw [henc]
    intro b hb
    obtain ⟨ch, hch, hbe⟩ := List.mem_map.mp hb
    rw [← hbe]
    exact hascii ch hch
  have hfirst : tryEncodings (realDecode c) encodings_to_try
      (utf8Encode (saveContent headers rows)) =
      some ((utf8Encode (saveContent headers rows)).map Char.ofNat, "cp949") :=
    tryEncodings_first (realDecode c) _ [] "cp949"
      ["euc-kr", "utf-8", "utf-8-sig", "latin1", "cp1252"] _
      (fun e' he' => absurd he' (List.not_mem_nil e'))
      (hcp _ hbs)
  have hdecoded : (utf8Encode (saveContent headers rows)).map Char.ofNat =
      saveContent headers rows := by
    rw [henc, List.map_map]
    refine (List.map_congr_left ?_).trans (List.map_id _)
    intro ch _
    exact Char.ofNat_toNat ch
  have hld : load_decode (realDecode c) c.lossyUtf8 (utf8Encode (saveContent headers rows)) =
      (saveContent headers rows, some "cp949") := by
    unfold load_decode
    rw [hfirst, hdecoded]
  have hload : load_file_fast c (utf8Encode (saveContent headers rows)) =
      loadTable (saveContent headers rows) := by
    unfold load_file_fast
    rw [hld]
  rw [hload]
  have hnl : ∀ l ∈ (joinC '\t' headers :: rows.map (joinC '\t')), '\n' ∉ l := by
    intro l hl
    rcases List.mem_cons.mp hl with h | h
    · subst h
      exact not_mem_joinC '\t' '\n' headers (by decide) (fun f hf => (hhf f hf).2.1)
    · obtain ⟨r, hr, hre⟩ := List.mem_map.mp h
      rw [← hre]
      exact not_mem_joinC '\t' '\n' r (by decide) (fun f hf => (hrf r hr f hf).2.1)
  have hnocr : '\r' ∉ linesJoin (joinC '\t' headers :: rows.map (joinC '\t')) := by
    refine not_mem_linesJoin _ _ (by decide) ?_
    intro l hl
    rcases List.mem_cons.mp hl with h | h
    · subst h
      exact not_mem_joinC '\t' '\r' headers (by decide) (fun f hf => (hhf f hf).2.2.1)
    · obtain ⟨r, hr, hre⟩ := List.mem_map.mp h
      rw [← hre]
      exact not_mem_joinC '\t' '\r' r (by decide) (fun f hf => (hrf r hr f hf).2.2.1)
  have hparsed : parseLines (saveContent headers rows) =
      joinC '\t' headers :: rows.map (joinC '\t') := by
    unfold parseLines
    rw [hsave, normNL_of_no_cr _ hnocr, splitOnC_linesJoin _ hnl, List.map_append,
      List.filter_append]
    have hmt : (joinC '\t' headers :: rows.map (joinC '\t')).map trimC =
        joinC '\t' headers :: rows.map (joinC '\t') := by
      refine (List.map_congr_left ?_).trans (List.map_id _)
      intro l hl
      rcases List.mem_cons.mp hl with h | h
      · subst h
        exact hhl.1
      · obtain ⟨r, hr, hre⟩ := List.mem_map.mp h
        rw [← hre]
        exact (hrl r hr).1
    rw [hmt]
    have hfilter : (joinC '\t' headers :: rows.map (joinC '\t')).filter
        (fun l => !l.isEmpty) = joinC '\t' headers :: rows.map (joinC '\t') := by
      refine List.filter_eq_self.mpr ?_
      intro l hl
      rcases List.mem_cons.mp hl with h | h
      · subst h
        cases hc : joinC '\t' headers with
        | nil => exact absurd hc hhl.2
        | cons a b => rfl
      · obtain ⟨r, hr, hre⟩ := List.mem_map.mp h
        rw [← hre]
        cases hc : joinC '\t' r with
        | nil => exact absurd hc (hrl r hr).2
        | cons a b => rfl
    rw [hfilter]
    simp
    rfl
  unfold loadTable
  rw [hparsed]
  have hne : headers ≠ [] := by
    intro h
    exact hhl.2 (by rw [h]; rfl)
  have hH : splitOnC '\t' (joinC '\t' headers) = headers :=
    splitOnC_joinC '\t' headers hne (fun f hf => (hhf f hf).1)
  show some (splitOnC '\t' (joinC '\t' headers), (rows.map (joinC '\t')).map
      (fun l => padRow (splitOnC '\t' (joinC '\t' headers)).length (splitOnC '\t' l))) =
    some (headers, rows)
  rw [hH]
  have hR : (rows.map (joinC '\t')).map
      (fun l => padRow headers.length (splitOnC '\t' l)) = rows := by
    rw [List.map_map]
    refine (List.map_congr_left ?_).trans (List.map_id _)
    intro r hr
    have hrne : r ≠ [] := by
      intro h
      exact (hrl r hr).2 (by rw [h]; rfl)
    show padRow headers.length (splitOnC '\t' (joinC '\t' r)) = r
    rw [splitOnC_joinC '\t' r hrne (fun f hf => (hrf r hr f hf).1)]
    exact padRow_of_ge _ _ (le_of_eq (hlen r hr).symm)
  rw [hR]

/-- Witness for C5 (amended): with an ASCII-transparent cp949 decoder, a
clean two-column one-row table round-trips exactly through the byte layer. -/
theorem c5_witness :
    load_file_fast demoCodecsA (utf8Encode (saveContent [['A'], ['B']] [[['1'], ['2']]])) =
      some ([['A'], ['B']], [[['1'], ['2']]]) :=
  c5_roundtrip demoCodecsA [['A'], ['B']] [[['1'], ['2']]]
    (fun bs hb => by
      show (if ∀ b ∈ bs, b < 128 then some (bs.map Char.ofNat) else none) =
        some (bs.map Char.ofNat)
      rw [if_pos hb])
    (by decide) (by decide) (by decide) (by decide) (by decide)
